import Mathlib

/-!
Verification of the `disks-rs` partition planner, allocation strategy,
superblock detection dispatcher and SCSI device-name classifier.

The definitions below are a shallow embedding of the Rust sources in
`crates/partitioning/src/planner.rs`, `crates/partitioning/src/strategy.rs`,
`crates/superblock/src/lib.rs` (plus the per-filesystem modules) and
`crates/disks/src/scsi.rs`.  Machine integers (`u64`) are modelled as `Nat`;
where the Rust code can wrap around in release builds the embedding reduces
modulo `2 ^ 64` explicitly.
-/

deriving instance DecidableEq for Except

/-- Two to the sixty-fourth power: `u64` arithmetic wraps modulo this value
in release builds of the Rust source. -/
def U64 : Nat := 2 ^ 64

/-- Wrapping `u64` addition. -/
def wrapAdd (a b : Nat) : Nat := (a + b) % U64

/-- Wrapping `u64` subtraction; agrees with `a - b` whenever `b ≤ a`. -/
def wrapSub (a b : Nat) : Nat := if b ≤ a then a - b else a + U64 - b

/-- `planner.rs` `Region`: a contiguous byte region.  The field `stop` models
the Rust field named `end` (`end` is a Lean keyword). -/
structure Region where
  start : Nat
  stop : Nat
deriving DecidableEq

/-- `Region::size` (`self.end - self.start`, a wrapping `u64` subtraction). -/
def Region.size (r : Region) : Nat := wrapSub r.stop r.start

/-- `Region::overlaps_with`: `self.start < other.end && other.start < self.end`. -/
def Region.overlaps_with (a other : Region) : Bool :=
  decide (a.start < other.stop) && decide (other.start < a.stop)

/-- `planner.rs` `PlanError`.  The payload fields record the `start`/`end`
values carried by the Rust error variants. -/
inductive PlanError where
  | RegionOverlap (start stop : Nat)
  | RegionOutOfBounds (start stop : Nat)
  | NoFreeRegions
deriving DecidableEq

/-- `planner.rs` `Change`: a planned modification of the layout. -/
inductive Change where
  | AddPartition (start stop : Nat)
  | DeletePartition (original_index : Nat)
deriving DecidableEq

/-- `planner.rs` `Planner`.  The `VecDeque` of changes is modelled as a list
whose head is the front of the queue; `push_back` appends on the right and
`pop_back` drops the last element. -/
structure Planner where
  usable_start : Nat
  usable_end : Nat
  changes : List Change
  original_regions : List Region
deriving DecidableEq

/-- The slice of the `disks` crate `BlockDevice` interface consumed by
`Planner::new`: the device size in bytes and, for each partition, the pair
`(p.start, p.end)` that `Planner::new` turns into a `Region`. -/
structure BlockDevice where
  size : Nat
  partitions : List Region
deriving DecidableEq

/-- `Planner::new`. -/
def Planner.new (device : BlockDevice) : Planner :=
  { usable_start := 0
    usable_end := device.size
    changes := []
    original_regions := device.partitions }

/-- `Planner::with_start_offset`. -/
def Planner.with_start_offset (p : Planner) (offset : Nat) : Planner :=
  { p with usable_start := offset }

/-- `Planner::with_end_offset`. -/
def Planner.with_end_offset (p : Planner) (offset : Nat) : Planner :=
  { p with usable_end := offset }

/-- `planner.rs` `PARTITION_ALIGNMENT` (1 MiB). -/
def PARTITION_ALIGNMENT : Nat := 1024 * 1024

/-- `planner.rs` `is_aligned`. -/
def is_aligned (value alignment : Nat) : Bool := value % alignment == 0

/-- `planner.rs` `align_up`: round to the nearest multiple, upward when the
remainder exceeds half the alignment.  The addition in the round-up branch is
a wrapping `u64` addition. -/
def align_up (value alignment : Nat) : Nat :=
  let remainder := value % alignment
  if remainder = 0 then value
  else if alignment / 2 < remainder then (value + (alignment - remainder)) % U64
  else value - remainder

/-- `planner.rs` `align_down`: round to the nearest multiple, downward when
the remainder is below half the alignment. -/
def align_down (value alignment : Nat) : Nat :=
  let remainder := value % alignment
  if remainder = 0 then value
  else if remainder < alignment / 2 then value - remainder
  else (value + (alignment - remainder)) % U64

/-- The indices of the queued `DeletePartition` changes, in queue order
(the first pass of `Planner::current_layout`). -/
def delsOf (changes : List Change) : List Nat :=
  changes.filterMap fun c => match c with
    | Change.DeletePartition i => some i
    | _ => none

/-- The regions of the queued `AddPartition` changes, in queue order
(the second pass of `Planner::current_layout`). -/
def addsOf (changes : List Change) : List Region :=
  changes.filterMap fun c => match c with
    | Change.AddPartition s e => some (Region.mk s e)
    | _ => none

/-- Descending sort of the collected indices, as performed by
`deleted_indices.sort_unstable_by(|a, b| b.cmp(a))`: on `u64` keys every
descending-sorted permutation is the same list, so insertion sort is an
exact model. -/
def sortDesc (l : List Nat) : List Nat := List.insertionSort (· ≥ ·) l

/-- The deletion fold of `Planner::current_layout`: remove each sorted index
from the original regions via `Vec::remove`.  An out-of-range index (possible
when the same index was queued for deletion twice) is modelled as a no-op by
`List.eraseIdx`, where `Vec::remove` would panic. -/
def survivors (origs : List Region) (changes : List Change) : List Region :=
  (sortDesc (delsOf changes)).foldl (fun layout index => layout.eraseIdx index) origs

/-- `Planner::current_layout`. -/
def current_layout (p : Planner) : List Region :=
  survivors p.original_regions p.changes ++ addsOf p.changes

/-- `Planner::plan_add_partition`.  Returns the Rust result together with the
planner state after the call (unchanged on every error path). -/
def plan_add_partition (p : Planner) (start stop : Nat) : Except PlanError Unit × Planner :=
  let aligned_start := max (align_up start PARTITION_ALIGNMENT) p.usable_start
  let aligned_end := min (align_down stop PARTITION_ALIGNMENT) p.usable_end
  if is_aligned start PARTITION_ALIGNMENT = true ∧ aligned_start ≠ start then
    (Except.error (PlanError.RegionOutOfBounds aligned_start aligned_end), p)
  else if is_aligned stop PARTITION_ALIGNMENT = true ∧ aligned_end ≠ stop then
    (Except.error (PlanError.RegionOutOfBounds aligned_start aligned_end), p)
  else if aligned_start < p.usable_start ∨ p.usable_end < aligned_end then
    (Except.error (PlanError.RegionOutOfBounds aligned_start aligned_end), p)
  else if aligned_end ≤ aligned_start then
    (Except.error (PlanError.RegionOutOfBounds aligned_start aligned_end), p)
  else if (current_layout p).any (fun region => (Region.mk aligned_start aligned_end).overlaps_with region) then
    (Except.error (PlanError.RegionOverlap aligned_start aligned_end), p)
  else
    (Except.ok (), { p with changes := p.changes ++ [Change.AddPartition aligned_start aligned_end] })

/-- `Planner::usable_size` (a wrapping `u64` subtraction). -/
def Planner.usable_size (p : Planner) : Nat := wrapSub p.usable_end p.usable_start

/-- `Planner::offsets`. -/
def Planner.offsets (p : Planner) : Nat × Nat := (p.usable_start, p.usable_end)

/-- `Planner::plan_delete_partition`. -/
def plan_delete_partition (p : Planner) (index : Nat) : Except PlanError Unit × Planner :=
  if p.original_regions.length ≤ index then
    (Except.error (PlanError.RegionOutOfBounds p.usable_start p.usable_size), p)
  else
    (Except.ok (), { p with changes := p.changes ++ [Change.DeletePartition index] })

/-- `Planner::undo`: pop the most recent change, reporting whether one
existed. -/
def Planner.undo (p : Planner) : Bool × Planner :=
  if p.changes.isEmpty then (false, p)
  else (true, { p with changes := p.changes.dropLast })

/-- `Planner::reset`. -/
def Planner.reset (p : Planner) : Planner := { p with changes := [] }

/-- `Planner::has_changes`. -/
def Planner.has_changes (p : Planner) : Bool := !p.changes.isEmpty

/-- `Planner::plan_initialize_disk`: clear the queue and the snapshot. -/
def plan_initialize_disk (p : Planner) : Except PlanError Unit × Planner :=
  (Except.ok (), { p with changes := [], original_regions := [] })

/-! Helper lemmas characterising the planner operations. -/

/-- On success, `plan_add_partition` passed every guard and appended exactly
one `AddPartition` change holding the aligned-and-clamped bounds. -/
theorem plan_add_ok_elim {p p' : Planner} {s e : Nat}
    (h : plan_add_partition p s e = (Except.ok (), p')) :
    ¬ (is_aligned s PARTITION_ALIGNMENT = true ∧
        max (align_up s PARTITION_ALIGNMENT) p.usable_start ≠ s) ∧
    ¬ (is_aligned e PARTITION_ALIGNMENT = true ∧
        min (align_down e PARTITION_ALIGNMENT) p.usable_end ≠ e) ∧
    p.usable_start ≤ max (align_up s PARTITION_ALIGNMENT) p.usable_start ∧
    min (align_down e PARTITION_ALIGNMENT) p.usable_end ≤ p.usable_end ∧
    max (align_up s PARTITION_ALIGNMENT) p.usable_start <
      min (align_down e PARTITION_ALIGNMENT) p.usable_end ∧
    (∀ r ∈ current_layout p,
      (Region.mk (max (align_up s PARTITION_ALIGNMENT) p.usable_start)
        (min (align_down e PARTITION_ALIGNMENT) p.usable_end)).overlaps_with r = false) ∧
    p' = { p with changes := p.changes ++
        [Change.AddPartition (max (align_up s PARTITION_ALIGNMENT) p.usable_start)
          (min (align_down e PARTITION_ALIGNMENT) p.usable_end)] } := by
  simp only [plan_add_partition] at h
  split_ifs at h with h1 h2 h3 h4 h5
  · simp at h
  · simp at h
  · simp at h
  · simp at h
  · simp at h
  · simp only [Prod.mk.injEq] at h
    push_neg at h3
    refine ⟨h1, h2, le_max_right _ _, min_le_right _ _, lt_of_not_ge h4, ?_, h.2.symm⟩
    intro r hr
    by_contra hc
    exact h5 (List.any_eq_true.mpr ⟨r, hr, by simpa using hc⟩)

/-- On any error, `plan_add_partition` leaves the planner untouched. -/
theorem plan_add_state_on_error {p : Planner} {s e : Nat} {err : PlanError}
    (h : (plan_add_partition p s e).1 = Except.error err) :
    (plan_add_partition p s e).2 = p := by
  simp only [plan_add_partition] at h ⊢
  split_ifs at h ⊢
  all_goals simp_all

/-- On success, `plan_delete_partition` appended exactly one
`DeletePartition` change with an in-range index. -/
theorem plan_delete_ok_elim {p p' : Planner} {i : Nat}
    (h : plan_delete_partition p i = (Except.ok (), p')) :
    i < p.original_regions.length ∧
    p' = { p with changes := p.changes ++ [Change.DeletePartition i] } := by
  simp only [plan_delete_partition] at h
  split_ifs at h with h1
  · simp at h
  · simp only [Prod.mk.injEq] at h
    exact ⟨lt_of_not_ge h1, h.2.symm⟩

/-- On any error, `plan_delete_partition` leaves the planner untouched. -/
theorem plan_delete_state_on_error {p : Planner} {i : Nat} {err : PlanError}
    (h : (plan_delete_partition p i).1 = Except.error err) :
    (plan_delete_partition p i).2 = p := by
  simp only [plan_delete_partition] at h ⊢
  split_ifs at h ⊢
  all_goals simp_all

/-- The round-up branch value of both alignment helpers is a multiple of the
alignment, as is the round-down branch value. -/
theorem align_round_up_mod (value : Nat) :
    (value + (PARTITION_ALIGNMENT - value % PARTITION_ALIGNMENT)) % U64 %
      PARTITION_ALIGNMENT = 0 := by
  have hdvd : PARTITION_ALIGNMENT ∣ U64 := by
    refine ⟨2 ^ 44, by norm_num [U64, PARTITION_ALIGNMENT]⟩
  rw [Nat.mod_mod_of_dvd _ hdvd]
  have hdm := Nat.div_add_mod value PARTITION_ALIGNMENT
  have hlt : value % PARTITION_ALIGNMENT < PARTITION_ALIGNMENT :=
    Nat.mod_lt _ (by norm_num [PARTITION_ALIGNMENT])
  have key : value + (PARTITION_ALIGNMENT - value % PARTITION_ALIGNMENT) =
      PARTITION_ALIGNMENT * (value / PARTITION_ALIGNMENT + 1) := by
    have expand : PARTITION_ALIGNMENT * (value / PARTITION_ALIGNMENT + 1) =
        PARTITION_ALIGNMENT * (value / PARTITION_ALIGNMENT) + PARTITION_ALIGNMENT := by ring
    omega
  rw [key]
  exact Nat.mul_mod_right _ _

/-- The round-down branch value of both alignment helpers is a multiple of
the alignment. -/
theorem align_round_down_mod (value : Nat) :
    (value - value % PARTITION_ALIGNMENT) % PARTITION_ALIGNMENT = 0 := by
  have hdm := Nat.div_add_mod value PARTITION_ALIGNMENT
  have key : value - value % PARTITION_ALIGNMENT =
      PARTITION_ALIGNMENT * (value / PARTITION_ALIGNMENT) := by omega
  rw [key]
  exact Nat.mul_mod_right _ _

/-- `align_up` always lands on a multiple of the alignment (for the 1 MiB
alignment actually used, which divides `2 ^ 64`). -/
theorem align_up_mod (value : Nat) :
    align_up value PARTITION_ALIGNMENT % PARTITION_ALIGNMENT = 0 := by
  simp only [align_up]
  split_ifs with h1 h2
  · simpa using h1
  · exact align_round_up_mod value
  · exact align_round_down_mod value

/-- `align_down` always lands on a multiple of the alignment. -/
theorem align_down_mod (value : Nat) :
    align_down value PARTITION_ALIGNMENT % PARTITION_ALIGNMENT = 0 := by
  simp only [align_down]
  split_ifs with h1 h2
  · simpa using h1
  · exact align_round_down_mod value
  · exact align_round_up_mod value

/-! Claim theorems: C10, C6, C3, C2. -/

/-- Claim C10: `plan_initialize_disk` always returns Ok and empties both the
pending change queue and the initial-region snapshot; immediately afterwards
`current_layout` is empty, `has_changes` is false and `undo` returns false,
so the reset cannot be reverted. -/
theorem c10_initialize_disk_is_unrecoverable_reset (p : Planner) :
    (plan_initialize_disk p).1 = Except.ok () ∧
    (plan_initialize_disk p).2.changes = [] ∧
    (plan_initialize_disk p).2.original_regions = [] ∧
    current_layout (plan_initialize_disk p).2 = [] ∧
    (plan_initialize_disk p).2.has_changes = false ∧
    ((plan_initialize_disk p).2.undo).1 = false :=
  ⟨rfl, rfl, rfl, rfl, rfl, rfl⟩

/-- Claim C6: whenever `plan_add_partition` or `plan_delete_partition`
returns an error, the planner is exactly as it was before the call. -/
theorem c6_failed_plan_calls_leave_state_unchanged (p : Planner) (s e i : Nat) :
    (∀ err : PlanError, (plan_add_partition p s e).1 = Except.error err →
      (plan_add_partition p s e).2 = p) ∧
    (∀ err : PlanError, (plan_delete_partition p i).1 = Except.error err →
      (plan_delete_partition p i).2 = p) :=
  ⟨fun _ h => plan_add_state_on_error h, fun _ h => plan_delete_state_on_error h⟩

/-- Claim C6 witness: a concrete failing add (zero-sized region) and a
concrete failing delete (index out of range) leave a concrete planner
unchanged. -/
theorem c6_witness :
    ((plan_add_partition (Planner.mk 0 10485760 [] []) 0 0).1 =
        Except.error (PlanError.RegionOutOfBounds 0 0) ∧
      (plan_add_partition (Planner.mk 0 10485760 [] []) 0 0).2 = Planner.mk 0 10485760 [] []) ∧
    ((plan_delete_partition (Planner.mk 0 10485760 [] []) 0).1 =
        Except.error (PlanError.RegionOutOfBounds 0 10485760) ∧
      (plan_delete_partition (Planner.mk 0 10485760 [] []) 0).2 = Planner.mk 0 10485760 [] []) :=
  ⟨⟨by decide,
    (c6_failed_plan_calls_leave_state_unchanged (Planner.mk 0 10485760 [] []) 0 0 0).1
      (PlanError.RegionOutOfBounds 0 0) (by decide)⟩,
   ⟨by decide,
    (c6_failed_plan_calls_leave_state_unchanged (Planner.mk 0 10485760 [] []) 0 0 0).2
      (PlanError.RegionOutOfBounds 0 10485760) (by decide)⟩⟩

/-- Claim C3: a 1 MiB aligned start (or end) that alignment-and-clamping
would move makes `plan_add_partition` fail with `RegionOutOfBounds`; and a
call that succeeds with aligned start and end stores exactly that region,
unmoved. -/
theorem c3_aligned_inputs_are_never_moved (p : Planner) (s e : Nat) :
    (is_aligned s PARTITION_ALIGNMENT = true ∧
        max (align_up s PARTITION_ALIGNMENT) p.usable_start ≠ s →
      (plan_add_partition p s e).1 = Except.error
        (PlanError.RegionOutOfBounds (max (align_up s PARTITION_ALIGNMENT) p.usable_start)
          (min (align_down e PARTITION_ALIGNMENT) p.usable_end))) ∧
    (is_aligned e PARTITION_ALIGNMENT = true ∧
        min (align_down e PARTITION_ALIGNMENT) p.usable_end ≠ e →
      (plan_add_partition p s e).1 = Except.error
        (PlanError.RegionOutOfBounds (max (align_up s PARTITION_ALIGNMENT) p.usable_start)
          (min (align_down e PARTITION_ALIGNMENT) p.usable_end))) ∧
    (is_aligned s PARTITION_ALIGNMENT = true → is_aligned e PARTITION_ALIGNMENT = true →
      ∀ p' : Planner, plan_add_partition p s e = (Except.ok (), p') →
        p'.changes = p.changes ++ [Change.AddPartition s e]) := by
  refine ⟨?_, ?_, ?_⟩
  · intro h
    simp only [plan_add_partition]
    rw [if_pos h]
  · intro h
    by_cases h1 : is_aligned s PARTITION_ALIGNMENT = true ∧
        max (align_up s PARTITION_ALIGNMENT) p.usable_start ≠ s
    · simp only [plan_add_partition]
      rw [if_pos h1]
    · simp only [plan_add_partition]
      rw [if_neg h1, if_pos h]
  · intro hs he p' hok
    obtain ⟨g1, g2, -, -, -, -, hp'⟩ := plan_add_ok_elim hok
    have ha : max (align_up s PARTITION_ALIGNMENT) p.usable_start = s := by
      by_contra hc
      exact g1 ⟨hs, hc⟩
    have hb : min (align_down e PARTITION_ALIGNMENT) p.usable_end = e := by
      by_contra hc
      exact g2 ⟨he, hc⟩
    rw [hp', ha, hb]

/-- Claim C3 witness: concrete instances of all three conjuncts; an aligned
start moved by window clamping fails, an aligned end moved by window
clamping fails, and an aligned accepted call stores the region unmoved. -/
theorem c3_witness :
    ((plan_add_partition (Planner.mk 2097152 10485760 [] []) 0 3145728).1 =
      Except.error (PlanError.RegionOutOfBounds 2097152 3145728)) ∧
    ((plan_add_partition (Planner.mk 0 2097152 [] []) 0 10485760).1 =
      Except.error (PlanError.RegionOutOfBounds 0 2097152)) ∧
    ((Planner.mk 0 10485760 [Change.AddPartition 1048576 2097152] []).changes =
      (Planner.mk 0 10485760 [] []).changes ++ [Change.AddPartition 1048576 2097152]) :=
  ⟨(c3_aligned_inputs_are_never_moved (Planner.mk 2097152 10485760 [] []) 0 3145728).1
      (by decide),
   (c3_aligned_inputs_are_never_moved (Planner.mk 0 2097152 [] []) 0 10485760).2.1
      (by decide),
   (c3_aligned_inputs_are_never_moved (Planner.mk 0 10485760 [] []) 1048576 2097152).2.2
      (by decide) (by decide)
      (Planner.mk 0 10485760 [Change.AddPartition 1048576 2097152] []) (by decide)⟩

/-- Claim C2 counterexample: on a planner whose usable window was narrowed
with `with_start_offset` to 1.5 MiB (not a 1 MiB multiple), the call
`plan_add_partition 100 3145728` succeeds and appends an `AddPartition`
change whose start, 1572864, is not a multiple of 1 MiB. -/
theorem c2_counterexample :
    (plan_add_partition
        ((Planner.new (BlockDevice.mk 4194304 [])).with_start_offset 1572864) 100 3145728).1 =
      Except.ok () ∧
    (plan_add_partition
        ((Planner.new (BlockDevice.mk 4194304 [])).with_start_offset 1572864) 100 3145728).2.changes =
      [Change.AddPartition 1572864 3145728] ∧
    ¬ (1572864 % PARTITION_ALIGNMENT = 0) := by decide

/-- Claim C2 (amended): when the usable window bounds are themselves 1 MiB
multiples (as with the default window of a device whose size is a multiple),
every accepted `AddPartition` change has start and end that are multiples of
1 MiB. -/
theorem c2_amended_accepted_changes_are_aligned (p : Planner) (s e : Nat)
    (hus : p.usable_start % PARTITION_ALIGNMENT = 0)
    (hue : p.usable_end % PARTITION_ALIGNMENT = 0)
    (p' : Planner) (h : plan_add_partition p s e = (Except.ok (), p')) :
    ∃ a b, p'.changes = p.changes ++ [Change.AddPartition a b] ∧
      a % PARTITION_ALIGNMENT = 0 ∧ b % PARTITION_ALIGNMENT = 0 := by
  obtain ⟨-, -, -, -, -, -, hp'⟩ := plan_add_ok_elim h
  refine ⟨_, _, by rw [hp'], ?_, ?_⟩
  · rcases max_choice (align_up s PARTITION_ALIGNMENT) p.usable_start with hm | hm <;>
      rw [hm]
    · exact align_up_mod s
    · exact hus
  · rcases min_choice (align_down e PARTITION_ALIGNMENT) p.usable_end with hm | hm <;>
      rw [hm]
    · exact align_down_mod e
    · exact hue

/-- Claim C2 witness: an accepted call on an aligned window appends an
aligned change. -/
theorem c2_witness :
    (Planner.mk 0 10485760 [] []).usable_start % PARTITION_ALIGNMENT = 0 ∧
    (Planner.mk 0 10485760 [] []).usable_end % PARTITION_ALIGNMENT = 0 ∧
    ∃ a b, (Planner.mk 0 10485760 [Change.AddPartition 0 2097152] []).changes =
        (Planner.mk 0 10485760 [] []).changes ++ [Change.AddPartition a b] ∧
      a % PARTITION_ALIGNMENT = 0 ∧ b % PARTITION_ALIGNMENT = 0 :=
  ⟨by decide, by decide,
   c2_amended_accepted_changes_are_aligned (Planner.mk 0 10485760 [] []) 100 2097152
     (by decide) (by decide)
     (Planner.mk 0 10485760 [Change.AddPartition 0 2097152] []) (by decide)⟩

/-! Claim C5: adds followed by matching undos restore the layout. -/

/-- Run a sequence of `plan_add_partition` calls, requiring every one of
them to succeed. -/
def addAll : Planner → List (Nat × Nat) → Option Planner
  | p, [] => some p
  | p, (s, e) :: rest =>
    match plan_add_partition p s e with
    | (Except.ok _, p') => addAll p' rest
    | (Except.error _, _) => none

/-- Run `undo` a given number of times, collecting the returned flags. -/
def undoN : Nat → Planner → List Bool × Planner
  | 0, p => ([], p)
  | n + 1, p =>
    let r := p.undo
    let rest := undoN n r.2
    (r.1 :: rest.1, rest.2)

/-- A successful `addAll` run only appends to the change queue: the result
is the starting planner with some list of changes appended. -/
theorem addAll_appends {ps : List (Nat × Nat)} :
    ∀ {p p' : Planner}, addAll p ps = some p' →
      ∃ ext : List Change, p' = { p with changes := p.changes ++ ext } ∧
        ext.length = ps.length := by
  induction ps with
  | nil =>
    intro p p' h
    simp only [addAll] at h
    exact ⟨[], by cases h; simp, rfl⟩
  | cons pr rest ih =>
    intro p p' h
    simp only [addAll] at h
    rcases hcall : plan_add_partition p pr.1 pr.2 with ⟨res, q⟩
    rcases res with err | u
    · rw [hcall] at h
      simp at h
    · rw [hcall] at h
      have h' : addAll q rest = some p' := h
      obtain ⟨g1, g2, g3, g4, g5, g6, hq⟩ := plan_add_ok_elim (by rw [hcall])
      obtain ⟨ext, hext, hlen⟩ := ih h'
      refine ⟨Change.AddPartition (max (align_up pr.1 PARTITION_ALIGNMENT) p.usable_start)
        (min (align_down pr.2 PARTITION_ALIGNMENT) p.usable_end) :: ext, ?_, by simp [hlen]⟩
      rw [hext, hq]
      simp

/-- Undoing as many times as a list of appended changes is long restores the
original planner, with every undo reporting success. -/
theorem undoN_of_appended :
    ∀ (ext : List Change) (p : Planner) (base : List Change),
      p.changes = base ++ ext →
      undoN ext.length p = (List.replicate ext.length true, { p with changes := base }) := by
  intro ext
  induction ext using List.reverseRecOn with
  | nil =>
    intro p base h
    have hp : p.changes = base := by simpa using h
    have hcollapse : ({ p with changes := base } : Planner) = p := by
      cases p
      simp_all
    rw [List.length_nil]
    simp only [undoN, List.replicate]
    rw [hcollapse]
  | append_singleton ys y ih =>
    intro p base h
    have hne : p.changes.isEmpty = false := by
      rw [h]
      simp
    have hdrop : p.changes.dropLast = base ++ ys := by
      rw [h, ← List.append_assoc]
      simp
    have hstep : p.undo = (true, { p with changes := base ++ ys }) := by
      simp only [Planner.undo, hne]
      rw [hdrop]
      simp
    have hlen : (ys ++ [y]).length = ys.length + 1 := by simp
    rw [hlen]
    simp only [undoN, hstep]
    rw [ih { p with changes := base ++ ys } base rfl]
    simp [List.replicate_succ]

/-- Claim C5: n successful `plan_add_partition` calls followed by n `undo`
calls return `current_layout` to its starting value, each undo returning
true; and `undo` on an empty change queue returns false. -/
theorem c5_add_then_undo_restores_layout (p : Planner) (ps : List (Nat × Nat))
    (p' : Planner) (h : addAll p ps = some p') :
    undoN ps.length p' = (List.replicate ps.length true, p) ∧
    current_layout (undoN ps.length p').2 = current_layout p ∧
    ∀ q : Planner, q.changes = [] → q.undo.1 = false := by
  obtain ⟨ext, hext, hlen⟩ := addAll_appends h
  have hrun : undoN ps.length p' = (List.replicate ps.length true, p) := by
    rw [← hlen, hext]
    rw [undoN_of_appended ext { p with changes := p.changes ++ ext } p.changes rfl]
  refine ⟨hrun, by rw [hrun], ?_⟩
  intro q hq
  simp [Planner.undo, hq]

/-- Claim C5 witness: two concrete adds followed by two undos restore a
concrete fresh planner, and undo on the fresh planner returns false. -/
theorem c5_witness :
    undoN 2 (Planner.mk 0 10485760
        [Change.AddPartition 0 1048576, Change.AddPartition 1048576 2097152] []) =
      ([true, true], Planner.mk 0 10485760 [] []) ∧
    current_layout (undoN 2 (Planner.mk 0 10485760
        [Change.AddPartition 0 1048576, Change.AddPartition 1048576 2097152] [])).2 =
      current_layout (Planner.mk 0 10485760 [] []) ∧
    ∀ q : Planner, q.changes = [] → q.undo.1 = false :=
  c5_add_then_undo_restores_layout (Planner.mk 0 10485760 [] [])
    [(0, 1048576), (1048576, 2097152)]
    (Planner.mk 0 10485760
      [Change.AddPartition 0 1048576, Change.AddPartition 1048576 2097152] [])
    (by decide)

/-! Claim C1: machinery for the layout invariant. -/

/-- `List.eraseIdx` commutes: erasing a later index and then an earlier one
equals erasing the earlier one and then the shifted later one. -/
theorem eraseIdx_comm_of_lt {α : Type} :
    ∀ (l : List α) (i j : Nat), i < j →
      (l.eraseIdx j).eraseIdx i = (l.eraseIdx i).eraseIdx (j - 1) := by
  intro l
  induction l with
  | nil => intro i j _; simp [List.eraseIdx]
  | cons x t ih =>
    intro i j h
    obtain ⟨j', rfl⟩ : ∃ j', j = j' + 1 := ⟨j - 1, by omega⟩
    cases i with
    | zero => simp [List.eraseIdx]
    | succ i' =>
      have hij : i' < j' := by omega
      obtain ⟨j'', rfl⟩ : ∃ j'', j' = j'' + 1 := ⟨j' - 1, by omega⟩
      simp only [List.eraseIdx_cons_succ, Nat.add_sub_cancel]
      rw [ih i' (j'' + 1) hij]
      simp

/-- Folding `eraseIdx` over any index list yields a sublist. -/
theorem foldl_eraseIdx_sublist {α : Type} :
    ∀ (idxs : List Nat) (l : List α),
      List.Sublist (idxs.foldl (fun acc i => acc.eraseIdx i) l) l := by
  intro idxs
  induction idxs with
  | nil => intro l; exact List.Sublist.refl l
  | cons i rest ih =>
    intro l
    exact (ih (l.eraseIdx i)).trans (List.eraseIdx_sublist l i)

/-- Erasing one extra index `j` before folding a descending index list whose
entries are all at most `j` yields a sublist of the plain fold. -/
theorem foldl_eraseIdx_erase_sublist {α : Type} :
    ∀ (idxs : List Nat), List.Sorted (· ≥ ·) idxs →
      ∀ (j : Nat) (l : List α), (∀ i ∈ idxs, i ≤ j) →
        List.Sublist (idxs.foldl (fun acc i => acc.eraseIdx i) (l.eraseIdx j))
          (idxs.foldl (fun acc i => acc.eraseIdx i) l) := by
  intro idxs
  induction idxs with
  | nil =>
    intro _ j l _
    exact List.eraseIdx_sublist l j
  | cons i rest ih =>
    intro hs j l hle
    have hrest_sorted : List.Sorted (· ≥ ·) rest := hs.of_cons
    have hij : i ≤ j := hle i (List.mem_cons_self i rest)
    have hrest_le : ∀ k ∈ rest, k ≤ i := fun k hk => List.rel_of_sorted_cons hs k hk
    simp only [List.foldl_cons]
    rcases eq_or_lt_of_le hij with rfl | hlt
    · exact ih hrest_sorted i (l.eraseIdx i) hrest_le
    · rw [eraseIdx_comm_of_lt l i j hlt]
      exact ih hrest_sorted (j - 1) (l.eraseIdx i)
        (fun k hk => by have := hrest_le k hk; omega)

/-- Inserting one more index into a descending-sorted index list before the
erase fold yields a sublist of the plain fold. -/
theorem foldl_eraseIdx_orderedInsert_sublist {α : Type} :
    ∀ (S : List Nat), List.Sorted (· ≥ ·) S → ∀ (j : Nat) (l : List α),
      List.Sublist ((List.orderedInsert (· ≥ ·) j S).foldl (fun acc i => acc.eraseIdx i) l)
        (S.foldl (fun acc i => acc.eraseIdx i) l) := by
  intro S
  induction S with
  | nil =>
    intro _ j l
    simp only [List.orderedInsert, List.foldl_cons, List.foldl_nil]
    exact List.eraseIdx_sublist l j
  | cons b T ih =>
    intro hs j l
    simp only [List.orderedInsert]
    split_ifs with hjb
    · simp only [List.foldl_cons]
      refine foldl_eraseIdx_erase_sublist (b :: T) hs j l ?_
      intro i hi
      rcases List.mem_cons.mp hi with rfl | hi
      · exact hjb
      · exact le_trans (List.rel_of_sorted_cons hs i hi) hjb
    · simp only [List.foldl_cons]
      exact ih hs.of_cons j (l.eraseIdx b)

/-- Sorting a list with one element appended equals inserting that element
into the sorted list (descending-sorted lists of a multiset are unique). -/
theorem sortDesc_append_singleton (D : List Nat) (j : Nat) :
    sortDesc (D ++ [j]) = List.orderedInsert (· ≥ ·) j (sortDesc D) := by
  have hperm : List.Perm (sortDesc (D ++ [j])) (List.orderedInsert (· ≥ ·) j (sortDesc D)) :=
    ((List.perm_insertionSort _ (D ++ [j])).trans List.perm_append_comm).trans
      (((List.perm_insertionSort (· ≥ ·) D).symm.cons j).trans
        (List.perm_orderedInsert (· ≥ ·) j (sortDesc D)).symm)
  have hs1 : List.Sorted (· ≥ ·) (sortDesc (D ++ [j])) :=
    List.sorted_insertionSort _ _
  have hs2 : List.Sorted (· ≥ ·) (List.orderedInsert (· ≥ ·) j (sortDesc D)) :=
    (List.sorted_insertionSort (· ≥ ·) D).orderedInsert j _
  exact List.eq_of_perm_of_sorted hperm hs1 hs2

/-- The erase fold over the sorted form of `D1 ++ D2` yields a sublist of the
fold over the sorted form of `D1` alone: extra deletions only remove more. -/
theorem foldl_eraseIdx_sortDesc_append_sublist {α : Type} (D1 : List Nat) :
    ∀ (D2 : List Nat) (l : List α),
      List.Sublist ((sortDesc (D1 ++ D2)).foldl (fun acc i => acc.eraseIdx i) l)
        ((sortDesc D1).foldl (fun acc i => acc.eraseIdx i) l) := by
  intro D2
  induction D2 using List.reverseRecOn with
  | nil => intro l; rw [List.append_nil]
  | append_singleton ys j ih =>
    intro l
    rw [← List.append_assoc, sortDesc_append_singleton]
    exact (foldl_eraseIdx_orderedInsert_sublist (sortDesc (D1 ++ ys))
      (List.sorted_insertionSort _ _) j l).trans (ih l)

/-- Collected deletion indices distribute over queue concatenation. -/
theorem delsOf_append (c1 c2 : List Change) :
    delsOf (c1 ++ c2) = delsOf c1 ++ delsOf c2 :=
  List.filterMap_append c1 c2 _

/-- Collected addition regions distribute over queue concatenation. -/
theorem addsOf_append (c1 c2 : List Change) :
    addsOf (c1 ++ c2) = addsOf c1 ++ addsOf c2 :=
  List.filterMap_append c1 c2 _

/-- The survivors of the deletion fold form a sublist of the original
regions. -/
theorem survivors_sublist (origs : List Region) (changes : List Change) :
    List.Sublist (survivors origs changes) origs :=
  foldl_eraseIdx_sublist _ origs

/-- Queue extension only shrinks the survivor list. -/
theorem survivors_append_sublist (origs : List Region) (c1 c2 : List Change) :
    List.Sublist (survivors origs (c1 ++ c2)) (survivors origs c1) := by
  unfold survivors
  rw [delsOf_append]
  exact foldl_eraseIdx_sortDesc_append_sublist (delsOf c1) (delsOf c2) origs

/-- `Region::overlaps_with` is symmetric. -/
theorem overlaps_with_comm (a b : Region) :
    a.overlaps_with b = b.overlaps_with a := by
  simp only [Region.overlaps_with]
  exact Bool.and_comm _ _

/-- The planner operations quantified over by the layout invariant. -/
inductive Op where
  | add (start stop : Nat)
  | del (index : Nat)
  | init
  | undo
  | reset

/-- Apply one operation, keeping whatever planner state it leaves behind
(failed calls leave the state unchanged, so this also covers sequences in
which every operation succeeds). -/
def applyOp (p : Planner) : Op → Planner
  | Op.add s e => (plan_add_partition p s e).2
  | Op.del i => (plan_delete_partition p i).2
  | Op.init => (plan_initialize_disk p).2
  | Op.undo => p.undo.2
  | Op.reset => p.reset

/-- Apply a sequence of operations. -/
def runOps (p : Planner) (ops : List Op) : Planner := ops.foldl applyOp p

/-- The region lies inside the usable window and is nonempty. -/
def regionInWindow (us ue : Nat) (r : Region) : Prop :=
  us ≤ r.start ∧ r.start < r.stop ∧ r.stop ≤ ue

/-- Every queued addition was validated against the layout of the queue
prefix it was appended after: it lies inside the usable window and overlaps
nothing in that prefix layout. -/
def QueueOK (us ue : Nat) (origs : List Region) (c : List Change) : Prop :=
  ∀ c1 s e c2, c = c1 ++ Change.AddPartition s e :: c2 →
    regionInWindow us ue (Region.mk s e) ∧
    ∀ r ∈ survivors origs c1 ++ addsOf c1,
      (Region.mk s e).overlaps_with r = false

/-- Inductive invariant of every planner reachable from a fresh one whose
original regions pairwise do not overlap and lie inside the usable window. -/
def PlannerInv (p : Planner) : Prop :=
  List.Pairwise (fun a b => Region.overlaps_with a b = false) p.original_regions ∧
  (∀ r ∈ p.original_regions, regionInWindow p.usable_start p.usable_end r) ∧
  QueueOK p.usable_start p.usable_end p.original_regions p.changes

/-- An empty queue is trivially valid. -/
theorem queueOK_nil (us ue : Nat) (origs : List Region) : QueueOK us ue origs [] := by
  intro c1 s e c2 h
  cases c1 <;> simp at h

/-- Decompose an equation between `c1 ++ x :: c2` and `l ++ [y]`. -/
theorem append_singleton_decomp {α : Type} {c1 c2 l : List α} {x y : α}
    (h : c1 ++ x :: c2 = l ++ [y]) :
    (c1 = l ∧ x = y ∧ c2 = []) ∨ ∃ c2', c2 = c2' ++ [y] ∧ l = c1 ++ x :: c2' := by
  induction c2 using List.reverseRecOn with
  | nil =>
    left
    have h2 := List.append_inj' h (by simp)
    exact ⟨h2.1, by simpa using h2.2, rfl⟩
  | append_singleton zs z _ =>
    right
    rw [show x :: (zs ++ [z]) = (x :: zs) ++ [z] by simp, ← List.append_assoc] at h
    have h2 := List.append_inj' h (by simp)
    have hz : z = y := by simpa using h2.2
    have hl : l = c1 ++ (x :: zs) := h2.1.symm
    exact ⟨zs, by rw [hz], by rw [hl]⟩

/-- Appending a freshly validated addition preserves queue validity. -/
theorem queueOK_append_add {us ue : Nat} {origs : List Region} {c : List Change}
    {s e : Nat}
    (hq : QueueOK us ue origs c)
    (hw : regionInWindow us ue (Region.mk s e))
    (hov : ∀ r ∈ survivors origs c ++ addsOf c,
      (Region.mk s e).overlaps_with r = false) :
    QueueOK us ue origs (c ++ [Change.AddPartition s e]) := by
  intro c1 s' e' c2 h
  rcases append_singleton_decomp h.symm with ⟨rfl, hxy, rfl⟩ | ⟨c2', rfl, hl⟩
  · cases hxy
    exact ⟨hw, hov⟩
  · exact hq c1 s' e' c2' hl

/-- Appending a deletion preserves queue validity. -/
theorem queueOK_append_delete {us ue : Nat} {origs : List Region} {c : List Change}
    {i : Nat} (hq : QueueOK us ue origs c) :
    QueueOK us ue origs (c ++ [Change.DeletePartition i]) := by
  intro c1 s' e' c2 h
  rcases append_singleton_decomp h.symm with ⟨-, hxy, -⟩ | ⟨c2', -, hl⟩
  · exact absurd hxy (by simp)
  · exact hq c1 s' e' c2' hl

/-- Dropping the most recent change preserves queue validity. -/
theorem queueOK_dropLast {us ue : Nat} {origs : List Region} {c : List Change}
    (hq : QueueOK us ue origs c) : QueueOK us ue origs c.dropLast := by
  intro c1 s e c2 h
  by_cases hc : c = []
  · subst hc
    simp only [List.dropLast_nil] at h
    cases c1 <;> simp at h
  · have hfull : c = c1 ++ Change.AddPartition s e :: (c2 ++ [c.getLast hc]) := by
      conv_lhs => rw [← List.dropLast_append_getLast hc]
      rw [h]
      simp
    exact hq c1 s e (c2 ++ [c.getLast hc]) hfull

/-- Every operation preserves the planner invariant. -/
theorem plannerInv_applyOp {p : Planner} (hp : PlannerInv p) (op : Op) :
    PlannerInv (applyOp p op) := by
  obtain ⟨hpw, hwin, hq⟩ := hp
  cases op with
  | add s e =>
    rcases hres : plan_add_partition p s e with ⟨res, q⟩
    rcases res with err | u
    · have hsame : (plan_add_partition p s e).2 = p :=
        plan_add_state_on_error (by rw [hres])
      simp only [applyOp]
      rw [hsame]
      exact ⟨hpw, hwin, hq⟩
    · cases u
      obtain ⟨-, -, g3, g4, g5, g6, hqeq⟩ := plan_add_ok_elim hres
      simp only [applyOp]
      rw [hres, hqeq]
      refine ⟨hpw, hwin, ?_⟩
      exact queueOK_append_add hq ⟨g3, g5, g4⟩ g6
  | del i =>
    rcases hres : plan_delete_partition p i with ⟨res, q⟩
    rcases res with err | u
    · have hsame : (plan_delete_partition p i).2 = p :=
        plan_delete_state_on_error (by rw [hres])
      simp only [applyOp]
      rw [hsame]
      exact ⟨hpw, hwin, hq⟩
    · cases u
      obtain ⟨-, hqeq⟩ := plan_delete_ok_elim hres
      simp only [applyOp]
      rw [hres, hqeq]
      exact ⟨hpw, hwin, queueOK_append_delete hq⟩
  | init =>
    exact ⟨List.Pairwise.nil,
      fun r hr => absurd hr (by simp [applyOp, plan_initialize_disk]),
      queueOK_nil _ _ _⟩
  | undo =>
    by_cases hc : p.changes.isEmpty
    · simp only [applyOp, Planner.undo, hc, if_true]
      exact ⟨hpw, hwin, hq⟩
    · simp only [applyOp, Planner.undo, hc, Bool.false_eq_true, if_false]
      exact ⟨hpw, hwin, queueOK_dropLast hq⟩
  | reset =>
    exact ⟨hpw, hwin, queueOK_nil _ _ _⟩

/-- Operation sequences preserve the planner invariant. -/
theorem plannerInv_runOps {p : Planner} (hp : PlannerInv p) (ops : List Op) :
    PlannerInv (runOps p ops) := by
  induction ops generalizing p with
  | nil => exact hp
  | cons op rest ih =>
    simp only [runOps, List.foldl_cons]
    exact ih (plannerInv_applyOp hp op)

/-- Each region of `addsOf` sits at a queue decomposition. -/
theorem mem_addsOf_decomp {c : List Change} {r : Region} (h : r ∈ addsOf c) :
    ∃ c1 c2, c = c1 ++ Change.AddPartition r.start r.stop :: c2 := by
  unfold addsOf at h
  obtain ⟨ch, hmem, hch⟩ := List.mem_filterMap.mp h
  cases ch with
  | AddPartition s e =>
    obtain ⟨c1, c2, rfl⟩ := List.append_of_mem hmem
    have hr : Region.mk s e = r := by simpa using hch
    subst hr
    exact ⟨c1, c2, rfl⟩
  | DeletePartition i => simp at hch

/-- The queued additions of a valid queue pairwise do not overlap. -/
theorem pairwise_addsOf {us ue : Nat} {origs : List Region} :
    ∀ {c : List Change}, QueueOK us ue origs c →
      List.Pairwise (fun a b => Region.overlaps_with a b = false) (addsOf c) := by
  intro c
  induction c using List.reverseRecOn with
  | nil => intro _; simp [addsOf]
  | append_singleton ys y ih =>
    intro hq
    have hys : QueueOK us ue origs ys := fun c1 s e c2 h =>
      hq c1 s e (c2 ++ [y]) (by rw [h]; simp)
    have hpw := ih hys
    rw [addsOf_append]
    cases y with
    | DeletePartition i => simpa [addsOf] using hpw
    | AddPartition s e =>
      have hnew := hq ys s e [] rfl
      apply List.pairwise_append.mpr
      refine ⟨hpw, by simp [addsOf], ?_⟩
      intro a ha b hb
      have hb' : b = Region.mk s e := by simpa [addsOf] using hb
      rw [hb', overlaps_with_comm]
      exact hnew.2 a (List.mem_append_right _ ha)

/-- From the inductive invariant: the current layout is pairwise disjoint
and every region lies strictly inside the usable window. -/
theorem layout_of_plannerInv {p : Planner} (hp : PlannerInv p) :
    List.Pairwise (fun a b => a.stop ≤ b.start ∨ b.stop ≤ a.start) (current_layout p) ∧
    ∀ r ∈ current_layout p,
      p.usable_start ≤ r.start ∧ r.start < r.stop ∧ r.stop ≤ p.usable_end := by
  obtain ⟨hpw, hwin, hq⟩ := hp
  have hcross : ∀ a ∈ survivors p.original_regions p.changes,
      ∀ b ∈ addsOf p.changes, a.overlaps_with b = false := by
    intro a ha b hb
    obtain ⟨c1, c2, hdec⟩ := mem_addsOf_decomp hb
    have hmem1 : a ∈ survivors p.original_regions c1 := by
      refine List.Sublist.mem ?_ (survivors_append_sublist p.original_regions c1
        (Change.AddPartition b.start b.stop :: c2))
      rw [← hdec]
      exact ha
    have := (hq c1 b.start b.stop c2 hdec).2 a (List.mem_append_left _ hmem1)
    rw [overlaps_with_comm]
    exact this
  have hbool : List.Pairwise (fun a b => Region.overlaps_with a b = false)
      (current_layout p) := by
    unfold current_layout
    apply List.pairwise_append.mpr
    exact ⟨hpw.sublist (survivors_sublist _ _), pairwise_addsOf hq, hcross⟩
  constructor
  · refine hbool.imp ?_
    intro a b hab
    simp only [Region.overlaps_with, Bool.and_eq_false_iff, decide_eq_false_iff_not,
      not_lt] at hab
    omega
  · intro r hr
    rcases List.mem_append.mp hr with hr | hr
    · exact hwin r (List.Sublist.mem hr (survivors_sublist _ _))
    · obtain ⟨c1, c2, hdec⟩ := mem_addsOf_decomp hr
      exact (hq c1 r.start r.stop c2 hdec).1

/-- Claim C1 (amended): starting from a planner with an empty change queue
whose original regions pairwise do not overlap and lie inside the (possibly
narrowed) usable window, after any sequence of operations the regions of
`current_layout` pairwise satisfy `a.end ≤ b.start ∨ b.end ≤ a.start` and
every region `r` satisfies `usable_start ≤ r.start < r.end ≤ usable_end`.
The amendment: the original claim required the initial partitions to lie
only within the device, which the counterexample shows is not enough once
the window is narrowed; they must lie within the usable window. -/
theorem c1_amended_layout_invariant (p : Planner) (ops : List Op)
    (hchanges : p.changes = [])
    (hpw : List.Pairwise (fun a b => Region.overlaps_with a b = false) p.original_regions)
    (hwin : ∀ r ∈ p.original_regions,
      p.usable_start ≤ r.start ∧ r.start < r.stop ∧ r.stop ≤ p.usable_end) :
    List.Pairwise (fun a b => a.stop ≤ b.start ∨ b.stop ≤ a.start)
      (current_layout (runOps p ops)) ∧
    ∀ r ∈ current_layout (runOps p ops),
      (runOps p ops).usable_start ≤ r.start ∧ r.start < r.stop ∧
        r.stop ≤ (runOps p ops).usable_end := by
  have hinv : PlannerInv p := by
    refine ⟨hpw, fun r hr => hwin r hr, ?_⟩
    rw [hchanges]
    exact queueOK_nil _ _ _
  exact layout_of_plannerInv (plannerInv_runOps hinv ops)

/-- Claim C1 counterexample: a device of 10 MiB with the single partition
`[0, 1 MiB)` — pairwise non-overlapping and within the device — whose
planner window is then narrowed with `with_start_offset` to 2 MiB.  With no
operation at all, `current_layout` contains a region whose start is below
`usable_start`, refuting the claimed invariant. -/
theorem c1_counterexample :
    List.Pairwise (fun a b => Region.overlaps_with a b = false)
      (BlockDevice.mk 10485760 [Region.mk 0 1048576]).partitions ∧
    (∀ r ∈ (BlockDevice.mk 10485760 [Region.mk 0 1048576]).partitions,
      r.start < r.stop ∧ r.stop ≤ (BlockDevice.mk 10485760 [Region.mk 0 1048576]).size) ∧
    ¬ (∀ r ∈ current_layout
        ((Planner.new (BlockDevice.mk 10485760 [Region.mk 0 1048576])).with_start_offset 2097152),
        ((Planner.new (BlockDevice.mk 10485760 [Region.mk 0 1048576])).with_start_offset 2097152).usable_start ≤ r.start) := by
  refine ⟨by decide, by decide, ?_⟩
  intro h
  exact absurd (h (Region.mk 0 1048576) (by decide)) (by decide)

/-- Claim C1 witness: a concrete run — add, delete, undo, add, reset, add,
initialize — on a narrowed window with one in-window original region
satisfies the invariant. -/
theorem c1_witness :
    ((Planner.mk 1048576 10485760 [] [Region.mk 1048576 2097152]).changes = [] ∧
      List.Pairwise (fun a b => Region.overlaps_with a b = false)
        [Region.mk 1048576 2097152] ∧
      ∀ r ∈ [Region.mk 1048576 2097152],
        (1048576 : Nat) ≤ r.start ∧ r.start < r.stop ∧ r.stop ≤ 10485760) ∧
    (List.Pairwise (fun a b => a.stop ≤ b.start ∨ b.stop ≤ a.start)
      (current_layout (runOps (Planner.mk 1048576 10485760 [] [Region.mk 1048576 2097152])
        [Op.add 2097152 3145728, Op.del 0, Op.undo, Op.add 4194304 5242880,
          Op.reset, Op.add 3145728 4194304, Op.init])) ∧
    ∀ r ∈ current_layout (runOps (Planner.mk 1048576 10485760 [] [Region.mk 1048576 2097152])
        [Op.add 2097152 3145728, Op.del 0, Op.undo, Op.add 4194304 5242880,
          Op.reset, Op.add 3145728 4194304, Op.init]),
      (runOps (Planner.mk 1048576 10485760 [] [Region.mk 1048576 2097152])
        [Op.add 2097152 3145728, Op.del 0, Op.undo, Op.add 4194304 5242880,
          Op.reset, Op.add 3145728 4194304, Op.init]).usable_start ≤ r.start ∧
        r.start < r.stop ∧
        r.stop ≤ (runOps (Planner.mk 1048576 10485760 [] [Region.mk 1048576 2097152])
        [Op.add 2097152 3145728, Op.del 0, Op.undo, Op.add 4194304 5242880,
          Op.reset, Op.add 3145728 4194304, Op.init]).usable_end) :=
  ⟨⟨by decide, by decide, by decide⟩,
   c1_amended_layout_invariant (Planner.mk 1048576 10485760 [] [Region.mk 1048576 2097152])
     [Op.add 2097152 3145728, Op.del 0, Op.undo, Op.add 4194304 5242880,
       Op.reset, Op.add 3145728 4194304, Op.init]
     (by decide) (by decide) (by decide)⟩

/-! Claim C4: adjacency does not count as overlap. -/

/-- `align_up` fixes aligned values. -/
theorem align_up_eq_self_of_aligned {v : Nat} (h : v % PARTITION_ALIGNMENT = 0) :
    align_up v PARTITION_ALIGNMENT = v := by
  simp [align_up, h]

/-- `align_down` fixes aligned values. -/
theorem align_down_eq_self_of_aligned {v : Nat} (h : v % PARTITION_ALIGNMENT = 0) :
    align_down v PARTITION_ALIGNMENT = v := by
  simp [align_down, h]

/-- Appending one addition appends its region to the layout. -/
theorem current_layout_append_add (p : Planner) (a b : Nat) :
    current_layout { p with changes := p.changes ++ [Change.AddPartition a b] } =
      current_layout p ++ [Region.mk a b] := by
  unfold current_layout survivors
  rw [delsOf_append, addsOf_append]
  simp [delsOf, addsOf, List.append_assoc]

/-- Claim C4 (amended): adjacent regions do not overlap, so after a
successful add of `[a, b)` (aligned bounds) on a planner none of whose
current regions overlaps `[b, c)`, the subsequent `plan_add_partition b c`
is never rejected with `RegionOverlap`.  The amendment: the original claim
omitted the proviso that no pre-existing region overlaps `[b, c)`; the
counterexample shows a planner with such a region is rejected. -/
theorem c4_amended_adjacent_add_not_overlap (p p' : Planner) (a b c : Nat)
    (ha : a % PARTITION_ALIGNMENT = 0) (hb : b % PARTITION_ALIGNMENT = 0)
    (hc : c % PARTITION_ALIGNMENT = 0)
    (hfirst : plan_add_partition p a b = (Except.ok (), p'))
    (hfree : ∀ r ∈ current_layout p, (Region.mk b c).overlaps_with r = false) :
    (Region.mk a b).overlaps_with (Region.mk b c) = false ∧
    ∀ s e, (plan_add_partition p' b c).1 ≠ Except.error (PlanError.RegionOverlap s e) := by
  obtain ⟨g1, g2, g3, g4, g5, g6, hp'⟩ := plan_add_ok_elim hfirst
  have hba : is_aligned a PARTITION_ALIGNMENT = true := by simp [is_aligned, ha]
  have hbb : is_aligned b PARTITION_ALIGNMENT = true := by simp [is_aligned, hb]
  have haa : max (align_up a PARTITION_ALIGNMENT) p.usable_start = a := by
    by_contra hne
    exact g1 ⟨hba, hne⟩
  have hee : min (align_down b PARTITION_ALIGNMENT) p.usable_end = b := by
    by_contra hne
    exact g2 ⟨hbb, hne⟩
  rw [haa, hee] at g5 hp'
  have husa : p.usable_start ≤ a := by
    rw [← haa]
    exact le_max_right _ _
  have hab : a < b := g5
  have husb : p.usable_start ≤ b := le_trans husa (le_of_lt hab)
  have hus' : p'.usable_start = p.usable_start := by rw [hp']
  have hue' : p'.usable_end = p.usable_end := by rw [hp']
  have hlay : current_layout p' = current_layout p ++ [Region.mk a b] := by
    rw [hp']
    exact current_layout_append_add p a b
  have hA2 : max (align_up b PARTITION_ALIGNMENT) p'.usable_start = b := by
    rw [hus', align_up_eq_self_of_aligned hb]
    exact max_eq_left husb
  have hB2 : min (align_down c PARTITION_ALIGNMENT) p'.usable_end ≤ c := by
    rw [align_down_eq_self_of_aligned hc]
    exact min_le_left _ _
  refine ⟨by simp [Region.overlaps_with], ?_⟩
  intro s e
  simp only [plan_add_partition]
  split_ifs with h1 h2 h3 h4 h5
  · simp
  · simp
  · simp
  · simp
  · exfalso
    obtain ⟨r, hr, hov⟩ := List.any_eq_true.mp h5
    rw [hA2] at hov
    rw [hlay] at hr
    rcases List.mem_append.mp hr with hrp | hrnew
    · have hfr := hfree r hrp
      simp only [Region.overlaps_with, Bool.and_eq_true, decide_eq_true_eq] at hov
      simp only [Region.overlaps_with, Bool.and_eq_false_iff,
        decide_eq_false_iff_not, not_lt] at hfr
      omega
    · have hre : r = Region.mk a b := by simpa using hrnew
      subst hre
      simp [Region.overlaps_with] at hov
  · simp

/-- Claim C4 counterexample: with aligned positions `a = 0 < b = 1 MiB <
c = 3 MiB` inside the window and an original partition `[2 MiB, 3 MiB)`,
the add of `[a, b)` succeeds but the subsequent add of `[b, c)` IS rejected
with `RegionOverlap` — the claim fails for planners whose layout already
overlaps `[b, c)`. -/
theorem c4_counterexample :
    (plan_add_partition
        (Planner.new (BlockDevice.mk 10485760 [Region.mk 2097152 3145728])) 0 1048576).1 =
      Except.ok () ∧
    (plan_add_partition
        (plan_add_partition
          (Planner.new (BlockDevice.mk 10485760 [Region.mk 2097152 3145728])) 0 1048576).2
        1048576 3145728).1 =
      Except.error (PlanError.RegionOverlap 1048576 3145728) ∧
    (0 : Nat) % PARTITION_ALIGNMENT = 0 ∧
    (1048576 : Nat) % PARTITION_ALIGNMENT = 0 ∧
    (3145728 : Nat) % PARTITION_ALIGNMENT = 0 ∧
    (0 : Nat) < 1048576 ∧ (1048576 : Nat) < 3145728 ∧
    (3145728 : Nat) ≤ 10485760 := by decide

/-- Claim C4 witness: on a fresh empty disk the two adjacent adds go
through; the second is not rejected with overlap. -/
theorem c4_witness :
    ((0 : Nat) % PARTITION_ALIGNMENT = 0 ∧
      (1048576 : Nat) % PARTITION_ALIGNMENT = 0 ∧
      (2097152 : Nat) % PARTITION_ALIGNMENT = 0 ∧
      plan_add_partition (Planner.mk 0 10485760 [] []) 0 1048576 =
        (Except.ok (), Planner.mk 0 10485760 [Change.AddPartition 0 1048576] []) ∧
      ∀ r ∈ current_layout (Planner.mk 0 10485760 [] []),
        (Region.mk 1048576 2097152).overlaps_with r = false) ∧
    (Region.mk 0 1048576).overlaps_with (Region.mk 1048576 2097152) = false ∧
    ∀ s e, (plan_add_partition (Planner.mk 0 10485760 [Change.AddPartition 0 1048576] [])
        1048576 2097152).1 ≠ Except.error (PlanError.RegionOverlap s e) :=
  ⟨⟨by decide, by decide, by decide, by decide, by decide⟩,
   c4_amended_adjacent_add_not_overlap (Planner.mk 0 10485760 [] [])
     (Planner.mk 0 10485760 [Change.AddPartition 0 1048576] []) 0 1048576 2097152
     (by decide) (by decide) (by decide) (by decide) (by decide)⟩

/-! Claim C7: the allocation strategy layer (`strategy.rs`). -/

/-- `strategy.rs` `SizeRequirement`. -/
inductive SizeRequirement where
  | Exact (size : Nat)
  | AtLeast (min : Nat)
  | Range (min max : Nat)
  | Remaining
deriving DecidableEq

/-- `strategy.rs` `PartitionRequest`. -/
structure PartitionRequest where
  size : SizeRequirement
deriving DecidableEq

/-- `strategy.rs` `AllocationStrategy`. -/
inductive AllocationStrategy where
  | InitializeWholeDisk
  | LargestFree
  | FirstFit
  | SpecificRegion (r : Region)
deriving DecidableEq

/-- `strategy.rs` `Strategy`. -/
structure Strategy where
  allocation : AllocationStrategy
  requests : List PartitionRequest

/-- The loop body of `Strategy::find_free_regions`: push a gap when the
cursor sits strictly before the region start, then move the cursor to the
region end. -/
def gapStep (acc : List Region × Nat) (region : Region) : List Region × Nat :=
  (if acc.2 < region.start then acc.1 ++ [Region.mk acc.2 region.start] else acc.1,
    region.stop)

/-- `Strategy::find_free_regions`: sort the current layout by start position
(`sort_by_key` is stable; insertion sort reproduces the stable result
exactly), walk it accumulating the gaps, and close with the tail gap up to
the second `offsets()` component. -/
def find_free_regions (_st : Strategy) (planner : Planner) : List Region :=
  let current := (planner.offsets).1
  let disk_size := (planner.offsets).2
  let layout := List.insertionSort (fun a b => a.start ≤ b.start) (current_layout planner)
  let walk := layout.foldl gapStep ([], current)
  if walk.2 < disk_size then walk.1 ++ [Region.mk walk.2 disk_size] else walk.1

/-- `Iterator::max_by_key` on region size: keeps the last of equally maximal
elements, mirroring the Rust documentation. -/
def max_by_size (regions : List Region) : Option Region :=
  regions.foldl
    (fun acc r => match acc with
      | none => some r
      | some m => if m.size ≤ r.size then some r else some m)
    none

/-- The target-selection step of `Strategy::apply`: `InitializeWholeDisk`
resets the planner and targets the whole usable window; `LargestFree` and
`FirstFit` pick from the free regions or fail with `NoFreeRegions`;
`SpecificRegion` is used verbatim. -/
def chooseTarget (st : Strategy) (planner : Planner) :
    Except PlanError (Region × Planner) :=
  match st.allocation with
  | AllocationStrategy.InitializeWholeDisk =>
    let planner' := (plan_initialize_disk planner).2
    Except.ok (Region.mk (planner'.offsets).1 (planner'.offsets).2, planner')
  | AllocationStrategy.LargestFree =>
    match max_by_size (find_free_regions st planner) with
    | some r => Except.ok (r, planner)
    | none => Except.error PlanError.NoFreeRegions
  | AllocationStrategy.FirstFit =>
    match (find_free_regions st planner).head? with
    | some r => Except.ok (r, planner)
    | none => Except.error PlanError.NoFreeRegions
  | AllocationStrategy.SpecificRegion region => Except.ok (region, planner)

/-- The loop body of the first pass of `Strategy::apply`: the accumulator
holds the running enumeration index, `total_fixed`, `min_flexible` (wrapping
`u64` sums) and the flexible request list. -/
def firstPassStep (acc : Nat × Nat × Nat × List (Nat × Nat × Option Nat))
    (request : PartitionRequest) : Nat × Nat × Nat × List (Nat × Nat × Option Nat) :=
  match request.size with
  | SizeRequirement.Exact size =>
    (acc.1 + 1, wrapAdd acc.2.1 size, acc.2.2.1, acc.2.2.2)
  | SizeRequirement.AtLeast min =>
    (acc.1 + 1, acc.2.1, wrapAdd acc.2.2.1 min, acc.2.2.2 ++ [(acc.1, min, none)])
  | SizeRequirement.Range min max =>
    (acc.1 + 1, acc.2.1, wrapAdd acc.2.2.1 min, acc.2.2.2 ++ [(acc.1, min, some max)])
  | SizeRequirement.Remaining =>
    (acc.1 + 1, acc.2.1, acc.2.2.1, acc.2.2.2 ++ [(acc.1, 0, none)])

/-- The first pass of `Strategy::apply`: walk the requests accumulating
`total_fixed`, `min_flexible` and the flexible request list. -/
def firstPass (requests : List PartitionRequest) :
    Nat × Nat × List (Nat × Nat × Option Nat) :=
  let folded := requests.foldl firstPassStep (0, 0, 0, [])
  (folded.2.1, folded.2.2.1, folded.2.2.2)

/-- The fixed-allocation loop of `Strategy::apply`: plan every `Exact`
request in document order, threading `current` and `remaining`. -/
def planFixed : List PartitionRequest → Planner → Nat → Nat →
    Except PlanError (Nat × Nat) × Planner
  | [], planner, current, remaining => (Except.ok (current, remaining), planner)
  | request :: rest, planner, current, remaining =>
    match request.size with
    | SizeRequirement.Exact size =>
      match plan_add_partition planner current (wrapAdd current size) with
      | (Except.ok _, planner') =>
        planFixed rest planner' (wrapAdd current size) (wrapSub remaining size)
      | (Except.error e, planner') => (Except.error e, planner')
    | _ => planFixed rest planner current remaining

/-- The flexible-allocation loop of `Strategy::apply`. -/
def planFlexible : List (Nat × Nat × Option Nat) → Nat → Planner → Nat → Nat →
    Except PlanError (Nat × Nat) × Planner
  | [], _, planner, current, remaining => (Except.ok (current, remaining), planner)
  | (_, min, max_opt) :: rest, per_flexible, planner, current, remaining =>
    let base := wrapAdd min per_flexible
    let size := match max_opt with
      | some max => Nat.min base max
      | none => base
    match plan_add_partition planner current (wrapAdd current size) with
    | (Except.ok _, planner') =>
      planFlexible rest per_flexible planner' (wrapAdd current size) (wrapSub remaining size)
    | (Except.error e, planner') => (Except.error e, planner')

/-- `Strategy::apply`.  All `u64` arithmetic wraps; the final redistribution
step undoes the last flexible add and re-plans it with the residual space
(the `unwrap` of the last flexible request is only reached when the list is
non-empty, so the fallback arm is dead code). -/
def Strategy.apply (st : Strategy) (planner : Planner) :
    Except PlanError Unit × Planner :=
  match chooseTarget st planner with
  | Except.error e => (Except.error e, planner)
  | Except.ok (target, planner1) =>
    let current := target.start
    let remaining := wrapSub target.stop target.start
    let fp := firstPass st.requests
    let total_fixed := fp.1
    let min_flexible := fp.2.1
    let flexible_requests := fp.2.2
    if remaining < wrapAdd total_fixed min_flexible then
      (Except.error (PlanError.RegionOutOfBounds current
        (wrapAdd (wrapAdd current total_fixed) min_flexible)), planner1)
    else
      let distributable := wrapSub (wrapSub remaining total_fixed) min_flexible
      let per_flexible := if flexible_requests.isEmpty then 0
        else distributable / flexible_requests.length
      match planFixed st.requests planner1 current remaining with
      | (Except.error e, planner2) => (Except.error e, planner2)
      | (Except.ok cr2, planner2) =>
        match planFlexible flexible_requests per_flexible planner2 cr2.1 cr2.2 with
        | (Except.error e, planner3) => (Except.error e, planner3)
        | (Except.ok cr3, planner3) =>
          if 0 < cr3.2 ∧ flexible_requests.isEmpty = false then
            let planner4 := (planner3.undo).2
            match flexible_requests.getLast? with
            | some fl =>
              let final_size0 := wrapAdd (wrapAdd fl.2.1 per_flexible) cr3.2
              let final_size := match fl.2.2 with
                | some max => Nat.min final_size0 max
                | none => final_size0
              let sstart := wrapSub (wrapSub cr3.1 per_flexible) fl.2.1
              match plan_add_partition planner4 sstart (wrapAdd sstart final_size) with
              | (Except.ok _, planner5) => (Except.ok (), planner5)
              | (Except.error e, planner5) => (Except.error e, planner5)
            | none => (Except.ok (), planner4)
          else
            (Except.ok (), planner3)

/-- The mathematical (non-wrapping) sum of the `Exact` request sizes. -/
def exactSum : List PartitionRequest → Nat
  | [] => 0
  | r :: rs =>
    (match r.size with
      | SizeRequirement.Exact n => n
      | _ => 0) + exactSum rs

/-- The mathematical sum of the flexible minima (`AtLeast` and `Range`
minima, `Remaining` counting zero). -/
def minSum : List PartitionRequest → Nat
  | [] => 0
  | r :: rs =>
    (match r.size with
      | SizeRequirement.AtLeast n => n
      | SizeRequirement.Range n _ => n
      | _ => 0) + minSum rs

/-- The wrapping `total_fixed` accumulator equals the mathematical sum of
`Exact` sizes reduced modulo `2 ^ 64`. -/
theorem foldl_firstPassStep_fixed :
    ∀ (rs : List PartitionRequest) (acc : Nat × Nat × Nat × List (Nat × Nat × Option Nat)),
      acc.2.1 < U64 →
      (rs.foldl firstPassStep acc).2.1 = (acc.2.1 + exactSum rs) % U64 := by
  intro rs
  induction rs with
  | nil =>
    intro acc h
    simp [exactSum, Nat.mod_eq_of_lt h]
  | cons r rest ih =>
    intro acc h
    obtain ⟨sz⟩ := r
    cases sz with
    | Exact n =>
      simp only [List.foldl_cons, firstPassStep]
      rw [ih _ (Nat.mod_lt _ (by norm_num [U64]))]
      simp only [exactSum, wrapAdd]
      rw [Nat.mod_add_mod, Nat.add_assoc]
    | AtLeast n =>
      simp only [List.foldl_cons, firstPassStep]
      rw [ih _ (by simpa using h)]
      simp [exactSum]
    | Range n m =>
      simp only [List.foldl_cons, firstPassStep]
      rw [ih _ (by simpa using h)]
      simp [exactSum]
    | Remaining =>
      simp only [List.foldl_cons, firstPassStep]
      rw [ih _ (by simpa using h)]
      simp [exactSum]

/-- The wrapping `min_flexible` accumulator equals the mathematical sum of
the flexible minima reduced modulo `2 ^ 64`. -/
theorem foldl_firstPassStep_flexible :
    ∀ (rs : List PartitionRequest) (acc : Nat × Nat × Nat × List (Nat × Nat × Option Nat)),
      acc.2.2.1 < U64 →
      (rs.foldl firstPassStep acc).2.2.1 = (acc.2.2.1 + minSum rs) % U64 := by
  intro rs
  induction rs with
  | nil =>
    intro acc h
    simp [minSum, Nat.mod_eq_of_lt h]
  | cons r rest ih =>
    intro acc h
    obtain ⟨sz⟩ := r
    cases sz with
    | Exact n =>
      simp only [List.foldl_cons, firstPassStep]
      rw [ih _ (by simpa using h)]
      simp [minSum]
    | AtLeast n =>
      simp only [List.foldl_cons, firstPassStep]
      rw [ih _ (Nat.mod_lt _ (by norm_num [U64]))]
      simp only [minSum, wrapAdd]
      rw [Nat.mod_add_mod, Nat.add_assoc]
    | Range n m =>
      simp only [List.foldl_cons, firstPassStep]
      rw [ih _ (Nat.mod_lt _ (by norm_num [U64]))]
      simp only [minSum, wrapAdd]
      rw [Nat.mod_add_mod, Nat.add_assoc]
    | Remaining =>
      simp only [List.foldl_cons, firstPassStep]
      rw [ih _ (by simpa using h)]
      simp [minSum]

/-- When the total of fixed and flexible minima fits in `u64`, the wrapping
check value computed by `Strategy::apply` equals the mathematical total. -/
theorem firstPass_check_value (rs : List PartitionRequest)
    (h : exactSum rs + minSum rs < U64) :
    wrapAdd (firstPass rs).1 (firstPass rs).2.1 = exactSum rs + minSum rs := by
  have htf : (firstPass rs).1 = exactSum rs % U64 := by
    simp only [firstPass]
    rw [foldl_firstPassStep_fixed rs (0, 0, 0, []) (by norm_num [U64])]
    simp
  have hmf : (firstPass rs).2.1 = minSum rs % U64 := by
    simp only [firstPass]
    rw [foldl_firstPassStep_flexible rs (0, 0, 0, []) (by norm_num [U64])]
    simp
  rw [htf, hmf]
  simp only [wrapAdd]
  rw [← Nat.add_mod]
  exact Nat.mod_eq_of_lt h

instance : IsTotal Region (fun a b => a.start ≤ b.start) :=
  ⟨fun a b => Nat.le_total a.start b.start⟩

instance : IsTrans Region (fun a b => a.start ≤ b.start) :=
  ⟨fun _ _ _ => Nat.le_trans⟩

/-- The gap walk of `find_free_regions` pushes nothing and ends at or past
the window end when the sorted, pairwise-disjoint, in-window regions cover
the whole interval from the cursor to the window end. -/
theorem gapsFold_no_gaps (ue : Nat) :
    ∀ (L : List Region) (current : Nat) (acc : List Region),
      List.Sorted (fun a b => a.start ≤ b.start) L →
      List.Pairwise (fun a b => Region.overlaps_with a b = false) L →
      (∀ r ∈ L, r.start < r.stop ∧ r.stop ≤ ue) →
      (∀ r ∈ L, current ≤ r.stop) →
      (∀ x, current ≤ x → x < ue → ∃ r ∈ L, r.start ≤ x ∧ x < r.stop) →
      (L.foldl gapStep (acc, current)).1 = acc ∧
        ue ≤ (L.foldl gapStep (acc, current)).2 := by
  intro L
  induction L with
  | nil =>
    intro current acc _ _ _ _ hcov
    have h2 : ue ≤ current := by
      by_contra hlt
      obtain ⟨r, hr, -⟩ := hcov current le_rfl (by omega)
      exact absurd hr (List.not_mem_nil r)
    exact ⟨rfl, h2⟩
  | cons r L' ih =>
    intro current acc hsorted hpw hwin hcs hcov
    have hrwin := hwin r (List.mem_cons_self r L')
    have hnogap : ¬ current < r.start := by
      intro hgap
      have hlt : current < ue := by
        have := hrwin
        omega
      obtain ⟨r', hr', hcover⟩ := hcov current le_rfl hlt
      rcases List.mem_cons.mp hr' with rfl | hr'
      · omega
      · have : r.start ≤ r'.start := List.rel_of_sorted_cons hsorted r' hr'
        omega
    have hstep : gapStep (acc, current) r = (acc, r.stop) := by
      simp [gapStep, hnogap]
    simp only [List.foldl_cons, hstep]
    have hchain : ∀ r' ∈ L', r.stop ≤ r'.start := by
      intro r' hr'
      have hov := List.rel_of_pairwise_cons hpw hr'
      have hsort := List.rel_of_sorted_cons hsorted r' hr'
      have hw' := hwin r' (List.mem_cons_of_mem r hr')
      simp only [Region.overlaps_with, Bool.and_eq_false_iff,
        decide_eq_false_iff_not, not_lt] at hov
      omega
    refine ih r.stop acc hsorted.of_cons (List.Pairwise.sublist (List.sublist_cons_self r L') hpw) ?_ ?_ ?_
    · intro r' hr'
      exact hwin r' (List.mem_cons_of_mem r hr')
    · intro r' hr'
      have := hchain r' hr'
      have := (hwin r' (List.mem_cons_of_mem r hr')).1
      omega
    · intro x hx1 hx2
      have hcx : current ≤ x := le_trans (hcs r (List.mem_cons_self r L')) hx1
      obtain ⟨r', hr', hcover⟩ := hcov x hcx hx2
      rcases List.mem_cons.mp hr' with rfl | hr'
      · omega
      · exact ⟨r', hr', hcover⟩

/-- Under the coverage hypotheses, `find_free_regions` is empty. -/
theorem find_free_regions_nil (st : Strategy) (p : Planner)
    (hpw : List.Pairwise (fun a b => Region.overlaps_with a b = false) (current_layout p))
    (hwin : ∀ r ∈ current_layout p,
      p.usable_start ≤ r.start ∧ r.start < r.stop ∧ r.stop ≤ p.usable_end)
    (hcov : ∀ x, p.usable_start ≤ x → x < p.usable_end →
      ∃ r ∈ current_layout p, r.start ≤ x ∧ x < r.stop) :
    find_free_regions st p = [] := by
  have hperm : List.Perm
      (List.insertionSort (fun a b => a.start ≤ b.start) (current_layout p))
      (current_layout p) := List.perm_insertionSort _ _
  have hmem : ∀ r, r ∈ List.insertionSort (fun a b => a.start ≤ b.start) (current_layout p) ↔
      r ∈ current_layout p := fun r => hperm.mem_iff
  have hpw' : List.Pairwise (fun a b => Region.overlaps_with a b = false)
      (List.insertionSort (fun a b => a.start ≤ b.start) (current_layout p)) :=
    (List.Perm.pairwise_iff
      (fun hab => by rw [overlaps_with_comm]; exact hab) hperm).mpr hpw
  have hmain := gapsFold_no_gaps p.usable_end
    (List.insertionSort (fun a b => a.start ≤ b.start) (current_layout p))
    p.usable_start [] (List.sorted_insertionSort _ _) hpw'
    (fun r hr => ((hwin r ((hmem r).mp hr)).2))
    (fun r hr => by
      have := hwin r ((hmem r).mp hr)
      omega)
    (fun x hx1 hx2 => by
      obtain ⟨r, hr, hc⟩ := hcov x hx1 hx2
      exact ⟨r, (hmem r).mpr hr, hc⟩)
  simp only [find_free_regions, Planner.offsets]
  rw [if_neg (by omega), hmain.1]

/-- Claim C7 (amended): two conjuncts.  First, when the target-selection
step of `Strategy::apply` chooses a target region and the mathematical sum
`total_fixed + min_flexible` both fits in `u64` (so the wrapping sums in the
code agree with it, which the counterexample shows is necessary) and
strictly exceeds the target size, `apply` fails with `RegionOutOfBounds`.
Second, for `LargestFree` or `FirstFit` on a planner whose current layout is
pairwise disjoint, sits inside the usable window, and covers it completely
(leaving no free gap), `apply` fails with `NoFreeRegions`. -/
theorem c7_amended_strategy_infeasibility :
    (∀ (st : Strategy) (p p1 : Planner) (target : Region),
      chooseTarget st p = Except.ok (target, p1) →
      target.start ≤ target.stop →
      exactSum st.requests + minSum st.requests < U64 →
      target.stop - target.start < exactSum st.requests + minSum st.requests →
      ∃ s e, (st.apply p).1 = Except.error (PlanError.RegionOutOfBounds s e)) ∧
    (∀ (st : Strategy) (p : Planner),
      (st.allocation = AllocationStrategy.LargestFree ∨
        st.allocation = AllocationStrategy.FirstFit) →
      List.Pairwise (fun a b => Region.overlaps_with a b = false) (current_layout p) →
      (∀ r ∈ current_layout p,
        p.usable_start ≤ r.start ∧ r.start < r.stop ∧ r.stop ≤ p.usable_end) →
      (∀ x, p.usable_start ≤ x → x < p.usable_end →
        ∃ r ∈ current_layout p, r.start ≤ x ∧ x < r.stop) →
      (st.apply p).1 = Except.error PlanError.NoFreeRegions) := by
  constructor
  · intro st p p1 target hchoose hts hfit hgt
    have hrem : wrapSub target.stop target.start = target.stop - target.start := by
      simp [wrapSub, hts]
    have hcheck : wrapAdd (firstPass st.requests).1 (firstPass st.requests).2.1 =
        exactSum st.requests + minSum st.requests := firstPass_check_value _ hfit
    refine ⟨target.start,
      wrapAdd (wrapAdd target.start (firstPass st.requests).1) (firstPass st.requests).2.1, ?_⟩
    simp only [Strategy.apply, hchoose]
    rw [if_pos (by rw [hrem, hcheck]; exact hgt)]
  · intro st p halloc hpw hwin hcov
    have hfree := find_free_regions_nil st p hpw hwin hcov
    rcases halloc with halloc | halloc
    · simp only [Strategy.apply, chooseTarget, halloc, hfree, max_by_size, List.foldl_nil]
    · simp only [Strategy.apply, chooseTarget, halloc, hfree, List.head?_nil]

/-- The concrete strategy of the Claim C7 counterexample: two `Exact`
requests whose `u64` sum wraps around to 1 MiB. -/
def c7cexStrategy : Strategy :=
  Strategy.mk AllocationStrategy.LargestFree
    [PartitionRequest.mk (SizeRequirement.Exact 26214400),
     PartitionRequest.mk (SizeRequirement.Exact (U64 - 25165824))]

/-- The concrete planner of the Claim C7 counterexample: a 30 MiB window
with one original partition `[20 MiB, 30 MiB)`, so the largest free region
is `[0, 20 MiB)`. -/
def c7cexPlanner : Planner :=
  Planner.mk 0 31457280 [] [Region.mk 20971520 31457280]

/-- Claim C7 counterexample: the chosen target is `[0, 20 MiB)` and the
mathematical `total_fixed + min_flexible` (about `2 ^ 64` bytes) strictly
exceeds the target size, yet `apply` returns `RegionOverlap`, not
`RegionOutOfBounds`: the wrapping `u64` sums sneak past the feasibility
check and the first oversized add then collides with the Windows
partition. -/
theorem c7_counterexample :
    chooseTarget c7cexStrategy c7cexPlanner =
      Except.ok (Region.mk 0 20971520, c7cexPlanner) ∧
    20971520 < exactSum c7cexStrategy.requests + minSum c7cexStrategy.requests ∧
    (c7cexStrategy.apply c7cexPlanner).1 =
      Except.error (PlanError.RegionOverlap 0 26214400) := by
  refine ⟨by decide, by decide, by decide⟩

/-- Claim C7 witness: both conjuncts at concrete inputs — an oversized
`Exact` request on an empty 20 MiB disk fails with out-of-bounds, and a
fully covered window fails with no free regions. -/
theorem c7_witness :
    (chooseTarget (Strategy.mk AllocationStrategy.LargestFree
        [PartitionRequest.mk (SizeRequirement.Exact 31457280)])
        (Planner.mk 0 20971520 [] []) =
      Except.ok (Region.mk 0 20971520, Planner.mk 0 20971520 [] []) ∧
      (∃ s e, ((Strategy.mk AllocationStrategy.LargestFree
          [PartitionRequest.mk (SizeRequirement.Exact 31457280)]).apply
          (Planner.mk 0 20971520 [] [])).1 =
        Except.error (PlanError.RegionOutOfBounds s e))) ∧
    ((Strategy.mk AllocationStrategy.FirstFit []).apply
        (Planner.mk 0 10485760 [] [Region.mk 0 10485760])).1 =
      Except.error PlanError.NoFreeRegions :=
  ⟨⟨by decide,
    c7_amended_strategy_infeasibility.1
      (Strategy.mk AllocationStrategy.LargestFree
        [PartitionRequest.mk (SizeRequirement.Exact 31457280)])
      (Planner.mk 0 20971520 [] []) (Planner.mk 0 20971520 [] [])
      (Region.mk 0 20971520) (by decide) (by decide)
      (by norm_num [exactSum, minSum, U64]) (by norm_num [exactSum, minSum])⟩,
   c7_amended_strategy_infeasibility.2
     (Strategy.mk AllocationStrategy.FirstFit [])
     (Planner.mk 0 10485760 [] [Region.mk 0 10485760])
     (Or.inr rfl) (by decide) (by decide)
     (fun x hx1 hx2 => ⟨Region.mk 0 10485760, by decide, Nat.zero_le x, hx2⟩)⟩

/-! Claim C8: the superblock detection dispatcher (`superblock/src/lib.rs`). -/

/-- `superblock/src/lib.rs` `Error`.  `IOErr` models the `IO` variant
wrapping a `std::io::Error` (such as the `UnexpectedEof` from a failed
`read_exact`). -/
inductive SbError where
  | UnknownSuperblock
  | InvalidJson
  | UnsupportedFeature
  | Utf8Decoding
  | Utf16Decoding
  | IOErr
deriving DecidableEq

/-- `superblock/src/lib.rs` `Kind`. -/
inductive Kind where
  | Btrfs
  | Ext4
  | LUKS2
  | F2FS
  | XFS
deriving DecidableEq

/-- The data of one `Detection` trait implementation: the magic offset, the
byte width of the magic type, the structure offset and byte size, and the
magic-validity predicate on the raw magic bytes. -/
structure Detection where
  MAGIC_OFFSET : Nat
  magicSigLen : Nat
  OFFSET : Nat
  SIZE : Nat
  is_valid_magic : List Nat → Bool

/-- `detect_superblock`: seek to the magic offset and `read_exact` the magic
(an I/O error if the source is too short), check it, then `read_exact` the
structure (again an I/O error if too short).  The zerocopy structure decode
from an exact-size buffer always succeeds for these plain-data layouts, so a
matching magic with enough bytes yields `Ok(Some(..))` and a failed magic
check yields `Ok(None)`. -/
def detect_superblock (T : Detection) (bytes : List Nat) : Except SbError (Option Unit) :=
  if bytes.length < T.MAGIC_OFFSET + T.magicSigLen then Except.error SbError.IOErr
  else if T.is_valid_magic ((bytes.drop T.MAGIC_OFFSET).take T.magicSigLen) = true then
    if bytes.length < T.OFFSET + T.SIZE then Except.error SbError.IOErr
    else Except.ok (some ())
  else Except.ok none

/-- Modelled from the spec: the `Detection` impl for EXT4 is not in the
source tree (only the pre-`Detection` `ext4.rs` is), so the offsets follow
the spec — structure at 1024, magic `0xEF53` as 16-bit little-endian at
1024 + 56 — while the structure size (1020 bytes) is the field-by-field sum
of the `Ext4` struct in `ext4.rs`. -/
def ext4D : Detection :=
  Detection.mk (1024 + 56) 2 1024 1020 (fun b => b == [0x53, 0xEF])

/-- The `Detection` impl of `btrfs.rs`: structure at `0x10000`, magic
`"_BHRfS_M"` (`0x4D5F53665248425F` little-endian) at `0x10000 + 0x40`,
size the field-by-field sum of the `Btrfs` struct (2931 bytes). -/
def btrfsD : Detection :=
  Detection.mk (65536 + 64) 8 65536 2931
    (fun b => b == [0x5F, 0x42, 0x48, 0x52, 0x66, 0x53, 0x5F, 0x4D])

/-- Modelled from the spec: the `Detection` impl for F2FS is not in the
source tree; the spec places the packed structure at offset 1024 with magic
`0xF2F52010` (little-endian, the first field), and the structure size
(3072 bytes) is the field-by-field sum of the `F2FS` struct in `f2fs.rs`. -/
def f2fsD : Detection :=
  Detection.mk 1024 4 1024 3072 (fun b => b == [0x10, 0x20, 0xF5, 0xF2])

/-- The `Detection` impl of `xfs.rs`: structure and magic at offset 0, magic
`"XFSB"` (`0x58465342` big-endian), size the field-by-field sum of the
`XFS` struct (264 bytes). -/
def xfsD : Detection :=
  Detection.mk 0 4 0 264 (fun b => b == [0x58, 0x46, 0x53, 0x42])

/-- Modelled from the spec: the `Detection` impl for LUKS2 is not in the
source tree; the spec places the header at the first byte with the
six-byte magic `"LUKS\xBA\xBE"` or `"SKUL\xBA\xBE"` (the constants of
`luks2/superblock.rs`), and the structure size (4096 bytes) is the
field-by-field sum of the `Luks2` struct. -/
def luks2D : Detection :=
  Detection.mk 0 6 0 4096
    (fun b => b == [0x4C, 0x55, 0x4B, 0x53, 0xBA, 0xBE] ||
      b == [0x53, 0x4B, 0x55, 0x4C, 0xBA, 0xBE])

/-- `Superblock::from_bytes`: try EXT4, BTRFS, F2FS, XFS, LUKS2 in that
order, propagating I/O errors with `?` and returning the first match, else
`UnknownSuperblock`. -/
def Superblock.from_bytes (bytes : List Nat) : Except SbError Kind :=
  match detect_superblock ext4D bytes with
  | Except.error e => Except.error e
  | Except.ok (some _) => Except.ok Kind.Ext4
  | Except.ok none =>
    match detect_superblock btrfsD bytes with
    | Except.error e => Except.error e
    | Except.ok (some _) => Except.ok Kind.Btrfs
    | Except.ok none =>
      match detect_superblock f2fsD bytes with
      | Except.error e => Except.error e
      | Except.ok (some _) => Except.ok Kind.F2FS
      | Except.ok none =>
        match detect_superblock xfsD bytes with
        | Except.error e => Except.error e
        | Except.ok (some _) => Except.ok Kind.XFS
        | Except.ok none =>
          match detect_superblock luks2D bytes with
          | Except.error e => Except.error e
          | Except.ok (some _) => Except.ok Kind.LUKS2
          | Except.ok none => Except.error SbError.UnknownSuperblock

/-- Whether a parser's magic matches in the given bytes. -/
def magicMatches (T : Detection) (bytes : List Nat) : Bool :=
  T.is_valid_magic ((bytes.drop T.MAGIC_OFFSET).take T.magicSigLen)

/-- The fixed parser order of the spec, with the `Kind` each returns. -/
def detectionOrder : List (Detection × Kind) :=
  [(ext4D, Kind.Ext4), (btrfsD, Kind.Btrfs), (f2fsD, Kind.F2FS),
    (xfsD, Kind.XFS), (luks2D, Kind.LUKS2)]

/-- Spec-side dispatcher: return the `Kind` of the first parser in the fixed
order whose magic matches, else `UnknownSuperblock`. -/
def specFromBytes (bytes : List Nat) : Except SbError Kind :=
  match detectionOrder.find? (fun dk => magicMatches dk.1 bytes) with
  | some dk => Except.ok dk.2
  | none => Except.error SbError.UnknownSuperblock

/-- On a source of at least 128 KiB, detection never hits an I/O error and
reduces to the magic test. -/
theorem detect_of_long (T : Detection) (bytes : List Nat)
    (hm : T.MAGIC_OFFSET + T.magicSigLen ≤ 131072)
    (hs : T.OFFSET + T.SIZE ≤ 131072)
    (h : 131072 ≤ bytes.length) :
    detect_superblock T bytes =
      Except.ok (if magicMatches T bytes = true then some () else none) := by
  simp only [detect_superblock]
  rw [if_neg (by omega)]
  by_cases hmm : T.is_valid_magic ((bytes.drop T.MAGIC_OFFSET).take T.magicSigLen) = true
  · rw [if_pos hmm, if_neg (by omega), if_pos (by simpa [magicMatches] using hmm)]
  · rw [if_neg hmm, if_neg (by simpa [magicMatches] using hmm)]

/-- Claim C8 (amended): for every byte input of at least 128 KiB — the size
`Superblock::from_reader` always supplies — `from_bytes` tries the parsers
in the fixed order EXT4, BTRFS, F2FS, XFS, LUKS2 and returns the first whose
magic matches; when none matches the result is `UnknownSuperblock` and no
other error.  The amendment: inputs shorter than a parser's magic or
structure read make `read_exact` fail and surface as an I/O error instead,
as the counterexample shows. -/
theorem c8_amended_fixed_order_dispatch (bytes : List Nat)
    (h : 131072 ≤ bytes.length) :
    Superblock.from_bytes bytes = specFromBytes bytes := by
  have hd1 := detect_of_long ext4D bytes (by norm_num [ext4D]) (by norm_num [ext4D]) h
  have hd2 := detect_of_long btrfsD bytes (by norm_num [btrfsD]) (by norm_num [btrfsD]) h
  have hd3 := detect_of_long f2fsD bytes (by norm_num [f2fsD]) (by norm_num [f2fsD]) h
  have hd4 := detect_of_long xfsD bytes (by norm_num [xfsD]) (by norm_num [xfsD]) h
  have hd5 := detect_of_long luks2D bytes (by norm_num [luks2D]) (by norm_num [luks2D]) h
  simp only [Superblock.from_bytes, hd1, hd2, hd3, hd4, hd5, specFromBytes, detectionOrder]
  by_cases h1 : magicMatches ext4D bytes = true <;>
    by_cases h2 : magicMatches btrfsD bytes = true <;>
    by_cases h3 : magicMatches f2fsD bytes = true <;>
    by_cases h4 : magicMatches xfsD bytes = true <;>
    by_cases h5 : magicMatches luks2D bytes = true <;>
    simp [h1, h2, h3, h4, h5, List.find?]

/-- Claim C8 counterexample: on the empty byte input, the very first
`read_exact` fails, so `from_bytes` returns the I/O error — not
`UnknownSuperblock` — refuting the claim that for every byte input a
no-match outcome is the only error. -/
theorem c8_counterexample :
    Superblock.from_bytes [] = Except.error SbError.IOErr ∧
    SbError.IOErr ≠ SbError.UnknownSuperblock := by
  refine ⟨by decide, by decide⟩

/-- Claim C8 witness: on a 128 KiB all-zero input the dispatcher agrees
with the spec-side first-match function (and hence returns
`UnknownSuperblock` there). -/
theorem c8_witness :
    (131072 : Nat) ≤ (List.replicate 131072 0).length ∧
    Superblock.from_bytes (List.replicate 131072 0) =
      specFromBytes (List.replicate 131072 0) :=
  ⟨by rw [List.length_replicate], c8_amended_fixed_order_dispatch (List.replicate 131072 0)
    (by rw [List.length_replicate])⟩

/-! Claim C9: the SCSI device-name classifier (`disks/src/scsi.rs`). -/

/-- `name.starts_with("sd")` on the character sequence. -/
def startsWithSd : List Char → Bool
  | a :: b :: _ => a == 's' && b == 'd'
  | _ => false

/-- The name check of `scsi::Disk::from_sysfs_path`:
`name.starts_with("sd") && name[2..].chars().all(char::is_alphabetic)`.
`Char.isAlpha` models `char::is_alphabetic` faithfully on ASCII names
(`is_alphabetic` accepts all Unicode alphabetic characters). -/
def scsiNameMatches (name : List Char) : Bool :=
  startsWithSd name && (name.drop 2).all (fun c => c.isAlpha)

/-- The spec-side pattern: `sd` followed by one or more lowercase ASCII
letters. -/
def sdLowerPattern (name : List Char) : Bool :=
  match name with
  | 's' :: 'd' :: rest => !rest.isEmpty && rest.all (fun c => 'a' ≤ c && c ≤ 'z')
  | _ => false

/-- Claim C9 counterexample: the classifier accepts the bare name `sd`
(zero trailing letters) and the uppercase name `sdA`, while the claimed
pattern `sd` followed by one or more lowercase letters rejects both. -/
theorem c9_counterexample :
    scsiNameMatches ['s', 'd'] = true ∧ sdLowerPattern ['s', 'd'] = false ∧
    scsiNameMatches ['s', 'd', 'A'] = true ∧ sdLowerPattern ['s', 'd', 'A'] = false := by
  refine ⟨by decide, by decide, by decide, by decide⟩

/-- Claim C9 (amended): for ASCII names, the classifier treats a name as a
SCSI disk if and only if it starts with `sd` and every following character
— possibly none, uppercase allowed — is alphabetic. -/
theorem c9_amended_scsi_name_pattern (name : List Char)
    (_hascii : ∀ c ∈ name, c.toNat < 128) :
    scsiNameMatches name = true ↔
      ∃ rest, name = 's' :: 'd' :: rest ∧ rest.all (fun c => c.isAlpha) = true := by
  cases name with
  | nil =>
    constructor
    · intro h
      simp [scsiNameMatches, startsWithSd] at h
    · rintro ⟨rest, hr, -⟩
      simp at hr
  | cons a t =>
    cases t with
    | nil =>
      constructor
      · intro h
        simp [scsiNameMatches, startsWithSd] at h
      · rintro ⟨rest, hr, -⟩
        simp at hr
    | cons b u =>
      constructor
      · intro h
        simp only [scsiNameMatches, startsWithSd, Bool.and_eq_true, beq_iff_eq] at h
        obtain ⟨⟨ha, hb⟩, hall⟩ := h
        subst ha
        subst hb
        exact ⟨u, rfl, by simpa using hall⟩
      · rintro ⟨rest, hr, hall⟩
        obtain ⟨ha, hb, hu⟩ : a = 's' ∧ b = 'd' ∧ u = rest := by simpa using hr
        subst ha
        subst hb
        subst hu
        simp only [scsiNameMatches, startsWithSd, Bool.and_eq_true, beq_iff_eq]
        exact ⟨by simp, by simpa using hall⟩

/-- Claim C9 witness: the concrete ASCII name `sdb` is classified SCSI and
matches the amended pattern. -/
theorem c9_witness :
    (∀ c ∈ (['s', 'd', 'b'] : List Char), c.toNat < 128) ∧
    (scsiNameMatches ['s', 'd', 'b'] = true ↔
      ∃ rest, (['s', 'd', 'b'] : List Char) = 's' :: 'd' :: rest ∧
        rest.all (fun c => c.isAlpha) = true) :=
  ⟨by decide, c9_amended_scsi_name_pattern ['s', 'd', 'b'] (by decide)⟩

